import Mathlib

/-!
Verification development for the TradeMind trading-journal application.

The definitions below are shallow embeddings of the application's source
code: trades and their lifecycle (`closeTrade`, `updateTrade` from the
application shell), the display-currency conversion (`convert`), the
dashboard statistics (`filteredTrades`, `winRate`, `avgRMultiple`), the
analytics equity curve (`equityData`), the notes marker encoding and its
parsers, and the feedback-chat shortcut (`sendMessage`).  Numbers are
modelled as rationals, JavaScript strings as lists of characters, and
absent (`undefined`) values as `Option`.
-/

/-- The six-value emotion vocabulary from the shared types module. -/
inductive Emotion where
  | FEAR | GREED | NEUTRAL | CONFIDENT | ANXIOUS | REVENGE
deriving DecidableEq, Repr

/-- Trade lifecycle status (`Open` / `Closed`). -/
inductive TradeStatus where
  | OPEN | CLOSED
deriving DecidableEq, Repr

/-- Trade direction (`'Long' | 'Short'`). -/
inductive TradeType where
  | Long | Short
deriving DecidableEq, Repr

/-- Display / storage currency (`'USD' | 'INR'`). -/
inductive Currency where
  | USD | INR
deriving DecidableEq, Repr

/-- The `Trade` interface from the shared types module.  Optional fields
(`exitPrice`, `exitEmotion`, `notes`, `pnl`) are `Option`s; `notes` is a
JavaScript string modelled as a list of characters. -/
structure Trade where
  id : String
  symbol : String
  type : TradeType
  entryPrice : ℚ
  stopLoss : ℚ
  target : ℚ
  exitPrice : Option ℚ := none
  entryEmotion : Emotion := Emotion.NEUTRAL
  exitEmotion : Option Emotion := none
  status : TradeStatus
  timestamp : Int
  notes : Option (List Char) := none
  pnl : Option ℚ := none
  currency : Currency
deriving DecidableEq, Repr

/-- The fixed display conversion rate `1 USD = 83.5 INR`. -/
def CONVERSION_RATE : ℚ := 167 / 2

/-- The shared display-conversion function, duplicated verbatim in the
dashboard, trade list and calendar components:
`if (!value) return 0; if (from === to) return value;
 return to === 'INR' ? value * RATE : value / RATE;`. -/
def convert (value : Option ℚ) (src dst : Currency) : ℚ :=
  match value with
  | none => 0
  | some v =>
    if v = 0 then 0
    else if src = dst then v
    else if dst = Currency.INR then v * CONVERSION_RATE
    else v / CONVERSION_RATE

/-- `24 * 60 * 60 * 1000` milliseconds, as in the dashboard filter. -/
def dayInMs : Int := 24 * 60 * 60 * 1000

/-- Dashboard / analytics time-range buckets (`1d/7d/30d/ytd/all`). -/
inductive TimeRange where
  | d1 | d7 | d30 | ytd | all
deriving DecidableEq, Repr

/-- One trade's inclusion test of the dashboard time filter.  `now` is
`Date.now()` and `soy` is `new Date(currentYear, 0, 1).getTime()`, the
local-calendar January 1st 00:00 instant, both supplied by the
environment. -/
def inRange (range : TimeRange) (now soy : Int) (t : Trade) : Bool :=
  match range with
  | TimeRange.all => true
  | TimeRange.d1 => decide (now - dayInMs < t.timestamp)
  | TimeRange.d7 => decide (now - 7 * dayInMs < t.timestamp)
  | TimeRange.d30 => decide (now - 30 * dayInMs < t.timestamp)
  | TimeRange.ytd => decide (soy < t.timestamp)

/-- The dashboard's `filteredTrades` memo: all trades passing the selected
time window. -/
def filteredTrades (trades : List Trade) (range : TimeRange) (now soy : Int) : List Trade :=
  trades.filter (inRange range now soy)

/-- The analytics component's `filteredTrades` memo: the same window
filter followed by an ascending stable sort on `timestamp`
(`.sort((a, b) => a.timestamp - b.timestamp)`). -/
def analyticsFilteredTrades (trades : List Trade) (range : TimeRange) (now soy : Int) :
    List Trade :=
  List.insertionSort (fun a b => a.timestamp ≤ b.timestamp)
    (trades.filter (inRange range now soy))

/-- `filteredTrades.filter(t => t.status === TradeStatus.CLOSED)`. -/
def closedOf (ts : List Trade) : List Trade :=
  ts.filter (fun t => decide (t.status = TradeStatus.CLOSED))

/-- `t.pnl || 0` — a missing pnl reads as zero. -/
def pnlD (t : Trade) : ℚ := t.pnl.getD 0

/-- The dashboard win-rate memo:
`closed.length > 0 ? (closed.filter(t => (t.pnl || 0) > 0).length / closed.length) * 100 : 0`. -/
def winRate (ts : List Trade) : ℚ :=
  let closed := closedOf ts
  if 0 < closed.length then
    (((closed.filter (fun t => decide (0 < pnlD t))).length : ℚ) / (closed.length : ℚ)) * 100
  else 0

/-- The dashboard average R-multiple memo, with the zero-risk guard
`risk > 0 ? (t.pnl || 0) / risk : 0` inside the reduce. -/
def avgRMultiple (ts : List Trade) : ℚ :=
  let closed := closedOf ts
  if 0 < closed.length then
    (closed.foldl (fun sum t =>
      let risk := |t.entryPrice - t.stopLoss|
      let multiple := if 0 < risk then pnlD t / risk else 0
      sum + multiple) 0) / (closed.length : ℚ)
  else 0

/-- One closed trade's summand in the R-multiple reduce. -/
def rContribution (t : Trade) : ℚ :=
  let risk := |t.entryPrice - t.stopLoss|
  if 0 < risk then pnlD t / risk else 0

/-- A point of the analytics equity curve (`{ name, pnl, individual }`). -/
structure EquityPoint where
  name : String
  pnl : ℚ
  individual : Option ℚ
deriving DecidableEq, Repr

/-- The cumulative mapping inside the `equityData` memo: `cumulativePnl +=
trade.pnl || 0` with labels `T1, T2, …`. -/
def equityGo (cum : ℚ) (idx : Nat) : List Trade → List EquityPoint
  | [] => []
  | t :: ts =>
    let c := cum + t.pnl.getD 0
    { name := "T" ++ toString (idx + 1), pnl := c, individual := t.pnl } ::
      equityGo c (idx + 1) ts

/-- The analytics `equityData` memo: restrict the (already filtered and
sorted) trades to closed ones with a defined `pnl`, then produce the
running cumulative sum. -/
def equityData (filtered : List Trade) : List EquityPoint :=
  let closedTrades :=
    filtered.filter (fun t => decide (t.status = TradeStatus.CLOSED ∧ t.pnl ≠ none))
  equityGo 0 0 closedTrades

/-- The newline character, used by the notes marker encoding. -/
def nlChar : Char := '\n'

/-- The literal marker `closeTrade` prepends to exit commentary. -/
def psychMarkFull : List Char := "[EXIT PSYCHOLOGY]: ".toList

/-- The literal marker `closeTrade` prepends to the exit chart URL; also
the separator used by the fetch-time `split`. -/
def chartMarkFull : List Char := "[EXIT CHART]: ".toList

/-- The colon-terminated psychology marker (no trailing space) used by the
calendar day-detail view's `includes`/`split` calls. -/
def psychMarkShort : List Char := "[EXIT PSYCHOLOGY]:".toList

/-- The colon-terminated chart marker (no trailing space) used by the
calendar day-detail view's `includes` filter. -/
def chartMarkShort : List Char := "[EXIT CHART]:".toList

/-- The notes amendment performed by `closeTrade`: starting from
`trade.notes || ''`, append `[EXIT PSYCHOLOGY]: ${exitNotes}` and then
`[EXIT CHART]: ${exitChartUrl}` when supplied (and truthy, i.e.
non-empty), each prefixed by a blank line when the accumulated notes are
non-empty. -/
def closeTradeNotes (notes : List Char) (exitNotes exitChartUrl : Option (List Char)) :
    List Char :=
  let n1 := match exitNotes with
    | none => notes
    | some s =>
      if s = [] then notes
      else notes ++ (if notes = [] then [] else [nlChar, nlChar]) ++ psychMarkFull ++ s
  match exitChartUrl with
  | none => n1
  | some s =>
    if s = [] then n1
    else n1 ++ (if n1 = [] then [] else [nlChar, nlChar]) ++ chartMarkFull ++ s

/-- The column set submitted by `closeTrade`'s backend update. -/
structure CloseUpdate where
  exit_price : ℚ
  exit_emotion : Emotion
  notes : List Char
  status : TradeStatus
  pnl : ℚ
deriving DecidableEq, Repr

/-- The shell's `closeTrade` operation.  It looks the id up in the
in-memory list and returns `none` (no backend write, no state change) when
the id is unknown; otherwise it returns the keyed update row it submits,
with `pnl` given by the manual override when supplied and by the
`Long`/`Short` price-difference formula otherwise. -/
def closeTrade (trades : List Trade) (id : String) (exitPrice : ℚ) (exitEmotion : Emotion)
    (manualPnL : Option ℚ) (exitNotes exitChartUrl : Option (List Char)) :
    Option (String × CloseUpdate) :=
  match trades.find? (fun t => t.id == id) with
  | none => none
  | some trade =>
    some (id,
      { exit_price := exitPrice
        exit_emotion := exitEmotion
        notes := closeTradeNotes (trade.notes.getD []) exitNotes exitChartUrl
        status := TradeStatus.CLOSED
        pnl :=
          match manualPnL with
          | some m => m
          | none =>
            match trade.type with
            | TradeType.Long => exitPrice - trade.entryPrice
            | TradeType.Short => trade.entryPrice - exitPrice })

/-- A persisted `trades` row at the storage boundary (snake_case columns). -/
structure TradeRow where
  id : String
  user_id : String
  symbol : String
  type : TradeType
  entry_price : ℚ
  exit_price : Option ℚ
  stop_loss : ℚ
  target : ℚ
  status : TradeStatus
  pnl : Option ℚ
  entry_emotion : Emotion
  exit_emotion : Option Emotion
  notes : Option (List Char)
  currency : Currency
  timestamp : Int
deriving DecidableEq, Repr

/-- The column set submitted by the shell's `updateTrade` operation. -/
structure UpdateTradePayload where
  symbol : String
  type : TradeType
  entry_price : ℚ
  stop_loss : ℚ
  target : ℚ
  notes : Option (List Char)
  currency : Currency
deriving DecidableEq, Repr

/-- The object literal passed to `.update(...)` by `updateTrade`. -/
def updateTradePayload (t : Trade) : UpdateTradePayload :=
  { symbol := t.symbol
    type := t.type
    entry_price := t.entryPrice
    stop_loss := t.stopLoss
    target := t.target
    notes := t.notes
    currency := t.currency }

/-- Backend semantics of a partial row update: exactly the payload's
columns are assigned, every other column keeps its stored value. -/
def applyUpdatePayload (r : TradeRow) (p : UpdateTradePayload) : TradeRow :=
  { r with
    symbol := p.symbol
    type := p.type
    entry_price := p.entry_price
    stop_loss := p.stop_loss
    target := p.target
    notes := p.notes
    currency := p.currency }

/-- `updateTrade`: apply the payload to the rows matching `.eq('id', t.id)`. -/
def updateTradeDb (rows : List TradeRow) (t : Trade) : List TradeRow :=
  rows.map (fun r => if r.id = t.id then applyUpdatePayload r (updateTradePayload t) else r)

/-- The JavaScript whitespace characters relevant to `trim()` here. -/
def isWs (c : Char) : Bool := c = ' ' || c = '\n' || c = '\t' || c = '\r'

/-- `trimStart()` on a character list. -/
def jsTrimLeft (s : List Char) : List Char := s.dropWhile isWs

/-- `trimEnd()` on a character list. -/
def jsTrimRight (s : List Char) : List Char := (s.reverse.dropWhile isWs).reverse

/-- `trim()` on a character list. -/
def jsTrim (s : List Char) : List Char := jsTrimRight (jsTrimLeft s)

/-- Fuelled worker for `String.prototype.split` with a literal separator:
scan left to right, cutting at each non-overlapping occurrence.  The fuel
only needs to dominate the string length. -/
def splitSubFuel (sep : List Char) : Nat → List Char → List (List Char)
  | _, [] => [[]]
  | 0, s => [s]
  | fuel + 1, c :: rest =>
    if sep ≠ [] ∧ sep.isPrefixOf (c :: rest) then
      [] :: splitSubFuel sep fuel ((c :: rest).drop sep.length)
    else
      match splitSubFuel sep fuel rest with
      | [] => [[c]]
      | piece :: pieces => (c :: piece) :: pieces

/-- `s.split(sep)` for a non-empty literal separator. -/
def splitSub (sep s : List Char) : List (List Char) := splitSubFuel sep s.length s

/-- `array.join(sep)`. -/
def joinWith (sep : List Char) : List (List Char) → List Char
  | [] => []
  | [x] => x
  | x :: y :: xs => x ++ sep ++ joinWith sep (y :: xs)

/-- The fetch-time `exitChartUrl` extraction in `fetchTrades`:
`notes.includes('[EXIT CHART]: ')` guarding
`notes.split('[EXIT CHART]: ')[1].split('\n')[0].trim()`. -/
def fetchExitChartUrl (notes : List Char) : Option (List Char) :=
  if chartMarkFull <:+: notes then
    some (jsTrim ((splitSub [nlChar] ((splitSub chartMarkFull notes).getD 1 [])).getD 0 []))
  else none

/-- The calendar day-detail note body: split the notes on newlines, drop
every line containing either colon-terminated marker, rejoin with
newlines and trim; fall back to the full notes when that comes out
empty. -/
def calendarNotesBody (notes : List Char) : List Char :=
  let body := jsTrim (joinWith [nlChar]
    ((splitSub [nlChar] notes).filter
      (fun line => !(decide (chartMarkShort <:+: line)) &&
        !(decide (psychMarkShort <:+: line)))))
  if body = [] then notes else body

/-- The calendar day-detail exit-log extraction:
`notes.includes('[EXIT PSYCHOLOGY]:')` guarding
`notes.split('[EXIT PSYCHOLOGY]:')[1].split('\n')[0].trim()`. -/
def calendarExitLog (notes : List Char) : Option (List Char) :=
  if psychMarkShort <:+: notes then
    some (jsTrim ((splitSub [nlChar] ((splitSub psychMarkShort notes).getD 1 [])).getD 0 []))
  else none

/-- ASCII lower-casing of one character, the fragment of
`String.prototype.toLowerCase` exercised by the shortcut check. -/
def lowerChar (c : Char) : Char :=
  if c = 'A' then 'a' else if c = 'B' then 'b' else if c = 'C' then 'c'
  else if c = 'D' then 'd' else if c = 'E' then 'e' else if c = 'F' then 'f'
  else if c = 'G' then 'g' else if c = 'H' then 'h' else if c = 'I' then 'i'
  else if c = 'J' then 'j' else if c = 'K' then 'k' else if c = 'L' then 'l'
  else if c = 'M' then 'm' else if c = 'N' then 'n' else if c = 'O' then 'o'
  else if c = 'P' then 'p' else if c = 'Q' then 'q' else if c = 'R' then 'r'
  else if c = 'S' then 's' else if c = 'T' then 't' else if c = 'U' then 'u'
  else if c = 'V' then 'v' else if c = 'W' then 'w' else if c = 'X' then 'x'
  else if c = 'Y' then 'y' else if c = 'Z' then 'z' else c

/-- `toLowerCase()` on a character list. -/
def toLowerList (s : List Char) : List Char := s.map lowerChar

/-- The chat widget's two tabs. -/
inductive ChatTab where
  | coach | feedback
deriving DecidableEq, Repr

/-- The synthesized `user_feedback` insert fired by the shortcut path. -/
structure FeedbackInsert where
  page : String
  urgency : String
  issue_type : String
  description : List Char
deriving DecidableEq, Repr

/-- The externally observable outcome of one `sendMessage` call. -/
inductive SendAction where
  | noop : SendAction
  | configError : SendAction
  | shortcut : String → FeedbackInsert → SendAction
  | remoteCall : SendAction
deriving DecidableEq, Repr

/-- The fixed acknowledgement message of the power-user shortcut. -/
def ackMessage : String := "✅ Got it! Reported."

/-- The feedback-mode power-user shortcut test, applied to the lower-cased
trimmed input: starts with `bug `, or equals `bug` or `broken`. -/
def isShortcutInput (lowerInput : List Char) : Bool :=
  ("bug ".toList).isPrefixOf lowerInput || decide (lowerInput = "bug".toList) ||
    decide (lowerInput = "broken".toList)

/-- The chat widget's `sendMessage` decision logic: bail out on empty
input or while loading; raise the configuration error when the API key is
absent; in feedback mode take the power-user shortcut — the fixed
acknowledgement plus a synthesized high-urgency feedback record holding
the trimmed input — without any remote call; otherwise call the remote
chat-completion API. -/
def sendMessage (tab : ChatTab) (input : List Char) (isLoading apiKeyPresent : Bool) :
    SendAction :=
  if jsTrim input = [] ∨ isLoading then SendAction.noop
  else if !apiKeyPresent then SendAction.configError
  else if tab = ChatTab.feedback ∧ isShortcutInput (toLowerList (jsTrim input)) then
    SendAction.shortcut ackMessage
      { page := "shortcut-capture"
        urgency := "high"
        issue_type := "power-user-report"
        description := jsTrim input }
  else SendAction.remoteCall

/-- A concrete open long trade used by witnesses. -/
def sampleLongTrade : Trade :=
  { id := "t1"
    symbol := "AAPL"
    type := TradeType.Long
    entryPrice := 100
    stopLoss := 95
    target := 120
    status := TradeStatus.OPEN
    timestamp := 0
    currency := Currency.USD }

/-- A concrete closed INR trade whose stored pnl is `83.5`. -/
def inrTrade : Trade :=
  { id := "c1"
    symbol := "NIFTY"
    type := TradeType.Long
    entryPrice := 100
    stopLoss := 99
    target := 110
    status := TradeStatus.CLOSED
    timestamp := 5
    pnl := some (167 / 2)
    currency := Currency.INR }

/-- A concrete closed trade timestamped exactly at the start-of-year
instant used in the YTD boundary counterexample. -/
def ytdBoundaryTrade : Trade :=
  { id := "y1"
    symbol := "NIFTY"
    type := TradeType.Long
    entryPrice := 10
    stopLoss := 9
    target := 12
    status := TradeStatus.CLOSED
    timestamp := 1704067200000
    pnl := some 1
    currency := Currency.INR }

section Theorems

/-- The R-multiple reduce accumulates exactly the per-trade contributions. -/
theorem foldl_rContribution (l : List Trade) (c : ℚ) :
    List.foldl (fun sum t =>
      let risk := |t.entryPrice - t.stopLoss|
      let multiple := if 0 < risk then pnlD t / risk else 0
      sum + multiple) c l = c + (l.map rContribution).sum := by
  induction l generalizing c with
  | nil => simp
  | cons x xs ih =>
    rw [List.foldl_cons, ih]
    show c + rContribution x + (List.map rContribution xs).sum =
      c + (List.map rContribution (x :: xs)).sum
    rw [List.map_cons, List.sum_cons, add_assoc]

/-- The cumulative `pnl` at index `k` of the equity mapping is the carried
sum plus the raw pnl values of the first `k + 1` trades. -/
theorem equityGo_pnl_get (ts : List Trade) (cum : ℚ) (idx k : Nat)
    (h : k < (equityGo cum idx ts).length) :
    ((equityGo cum idx ts).get ⟨k, h⟩).pnl =
      cum + ((ts.take (k + 1)).map (fun t => t.pnl.getD 0)).sum := by
  induction ts generalizing cum idx k with
  | nil => simp [equityGo] at h
  | cons t ts ih =>
    cases k with
    | zero => simp [equityGo]
    | succ k =>
      have h' : k < (equityGo (cum + t.pnl.getD 0) (idx + 1) ts).length := by
        simpa [equityGo] using h
      have step : (equityGo cum idx (t :: ts)).get ⟨k + 1, h⟩ =
          (equityGo (cum + t.pnl.getD 0) (idx + 1) ts).get ⟨k, h'⟩ := rfl
      rw [step, ih]
      simp [List.sum_cons]
      ring

/-- Claim C1: for every trade being closed, a supplied manual P&L override
is persisted verbatim regardless of prices, and without an override the
persisted pnl is `exitPrice - entryPrice` for a `Long` and
`entryPrice - exitPrice` for a `Short`. -/
theorem closeTrade_pnl_rule (trades : List Trade) (id : String) (xp : ℚ) (em : Emotion)
    (en eu : Option (List Char)) (trade : Trade)
    (h : trades.find? (fun t => t.id == id) = some trade) :
    (∀ m : ℚ, (closeTrade trades id xp em (some m) en eu).map (fun r => r.2.pnl) = some m) ∧
    (trade.type = TradeType.Long →
      (closeTrade trades id xp em none en eu).map (fun r => r.2.pnl) =
        some (xp - trade.entryPrice)) ∧
    (trade.type = TradeType.Short →
      (closeTrade trades id xp em none en eu).map (fun r => r.2.pnl) =
        some (trade.entryPrice - xp)) := by
  unfold closeTrade
  rw [h]
  exact ⟨fun m => rfl, fun hl => by simp [hl], fun hs => by simp [hs]⟩

/-- Witness for C1 at a concrete trade: entry 100, manual override -50
gives pnl -50; entry 100, exit 120, no override, Long gives pnl 20. -/
theorem closeTrade_pnl_rule_witness :
    ((closeTrade [sampleLongTrade] "t1" 100 Emotion.NEUTRAL (some (-50)) none none).map
        (fun r => r.2.pnl) = some (-50)) ∧
    ((closeTrade [sampleLongTrade] "t1" 120 Emotion.NEUTRAL none none none).map
        (fun r => r.2.pnl) = some (120 - sampleLongTrade.entryPrice)) :=
  ⟨(closeTrade_pnl_rule [sampleLongTrade] "t1" 100 Emotion.NEUTRAL none none sampleLongTrade
      (by decide)).1 (-50),
    (closeTrade_pnl_rule [sampleLongTrade] "t1" 120 Emotion.NEUTRAL none none sampleLongTrade
      (by decide)).2.1 rfl⟩

/-- Claim C4 counterexample: a trade timestamped exactly at the
local-calendar January 1st 00:00 instant is excluded by the YTD window
(the filter is strict), whereas the claim says every trade from that
instant onward is included. -/
theorem ytd_boundary_cex :
    ytdBoundaryTrade.timestamp = 1704067200000 ∧
    filteredTrades [ytdBoundaryTrade] TimeRange.ytd 1720000000000 1704067200000 = [] := by
  constructor
  · rfl
  · decide

/-- Claim C4 (amended): the dashboard and analytics window filters include
a trade iff its timestamp is strictly greater than `now` minus 24h, 7×24h
or 30×24h in milliseconds for 1D/7D/30D, strictly greater than the
local-calendar January 1st 00:00 instant for YTD, and always for ALL. -/
theorem filteredTrades_window_membership (trades : List Trade) (now soy : Int) (t : Trade) :
    (t ∈ filteredTrades trades TimeRange.d1 now soy ↔
      t ∈ trades ∧ now - 86400000 < t.timestamp) ∧
    (t ∈ filteredTrades trades TimeRange.d7 now soy ↔
      t ∈ trades ∧ now - 604800000 < t.timestamp) ∧
    (t ∈ filteredTrades trades TimeRange.d30 now soy ↔
      t ∈ trades ∧ now - 2592000000 < t.timestamp) ∧
    (t ∈ filteredTrades trades TimeRange.ytd now soy ↔
      t ∈ trades ∧ soy < t.timestamp) ∧
    (t ∈ filteredTrades trades TimeRange.all now soy ↔ t ∈ trades) ∧
    (∀ r : TimeRange, t ∈ analyticsFilteredTrades trades r now soy ↔
      t ∈ filteredTrades trades r now soy) := by
  have hd : dayInMs = 86400000 := by norm_num [dayInMs]
  have hm : ∀ r : TimeRange, t ∈ analyticsFilteredTrades trades r now soy ↔
      t ∈ filteredTrades trades r now soy := by
    intro r
    exact (List.perm_insertionSort _ _).mem_iff
  refine ⟨?_, ?_, ?_, ?_, ?_, hm⟩ <;>
    simp [filteredTrades, inRange, List.mem_filter, hd]

/-- Claim C5: the dashboard win rate is the closed-trade winner count over
the closed-trade count times 100, and exactly 0 when there are no closed
trades. -/
theorem winRate_formula (ts : List Trade) :
    winRate ts =
      if ts.countP (fun t => decide (t.status = TradeStatus.CLOSED)) = 0 then 0
      else ((ts.countP (fun t => decide (t.status = TradeStatus.CLOSED) &&
              decide (0 < pnlD t)) : ℚ) /
            (ts.countP (fun t => decide (t.status = TradeStatus.CLOSED)) : ℚ)) * 100 := by
  unfold winRate closedOf
  have hwin : ts.countP (fun t => decide (t.status = TradeStatus.CLOSED) &&
        decide (0 < pnlD t)) =
      ((ts.filter (fun t => decide (t.status = TradeStatus.CLOSED))).filter
        (fun t => decide (0 < pnlD t))).length := by
    rw [← List.countP_eq_length_filter, List.countP_filter]
    apply List.countP_congr
    intro x _
    simp [and_comm]
  rw [List.countP_eq_length_filter, hwin]
  by_cases h : (ts.filter (fun t => decide (t.status = TradeStatus.CLOSED))).length = 0
  · simp [h]
  · rw [if_neg h, if_pos (Nat.pos_of_ne_zero h)]

/-- Claim C6: the dashboard average R-multiple is the mean of the guarded
per-trade contributions over closed trades (0 when there are none), and a
trade whose stop-loss equals its entry price contributes exactly 0. -/
theorem avgRMultiple_guarded (ts : List Trade) (t : Trade) :
    (avgRMultiple ts =
      if (closedOf ts).length = 0 then 0
      else ((closedOf ts).map rContribution).sum / ((closedOf ts).length : ℚ)) ∧
    rContribution { t with stopLoss := t.entryPrice } = 0 := by
  constructor
  · simp only [avgRMultiple]
    rw [foldl_rContribution, zero_add]
    by_cases h : (closedOf ts).length = 0
    · simp [h]
    · rw [if_neg h, if_pos (Nat.pos_of_ne_zero h)]
  · simp [rContribution]

/-- Claim C8: the update operation submits only symbol, type, entry price,
stop-loss, target, notes and currency keyed by id; applying it to the
stored rows leaves every row's status, exit price, pnl, exit emotion and
timestamp (and id) unchanged, whatever the edited trade contains. -/
theorem updateTrade_frame (rows : List TradeRow) (t : Trade) :
    (updateTradeDb rows t).map (fun r => r.status) = rows.map (fun r => r.status) ∧
    (updateTradeDb rows t).map (fun r => r.exit_price) = rows.map (fun r => r.exit_price) ∧
    (updateTradeDb rows t).map (fun r => r.pnl) = rows.map (fun r => r.pnl) ∧
    (updateTradeDb rows t).map (fun r => r.exit_emotion) = rows.map (fun r => r.exit_emotion) ∧
    (updateTradeDb rows t).map (fun r => r.timestamp) = rows.map (fun r => r.timestamp) ∧
    (updateTradeDb rows t).map (fun r => r.id) = rows.map (fun r => r.id) := by
  unfold updateTradeDb
  simp only [List.map_map]
  refine ⟨?_, ?_, ?_, ?_, ?_, ?_⟩ <;>
    · apply List.map_congr_left
      intro r _
      by_cases h : r.id = t.id <;> simp [h, applyUpdatePayload, updateTradePayload]

/-- Claim C10: closing an id not present in the in-memory trade list is a
silent no-op — the operation returns before building any backend update. -/
theorem closeTrade_unknown_noop (trades : List Trade) (id : String) (xp : ℚ) (em : Emotion)
    (mp : Option ℚ) (en eu : Option (List Char)) (h : ∀ t ∈ trades, t.id ≠ id) :
    closeTrade trades id xp em mp en eu = none := by
  unfold closeTrade
  have hf : trades.find? (fun t => t.id == id) = none := by
    rw [List.find?_eq_none]
    intro t ht
    simpa using h t ht
  rw [hf]

/-- Witness for C10: closing an unknown id against a one-trade list. -/
theorem closeTrade_unknown_noop_witness :
    closeTrade [sampleLongTrade] "zzz" 120 Emotion.NEUTRAL none none none = none :=
  closeTrade_unknown_noop [sampleLongTrade] "zzz" 120 Emotion.NEUTRAL none none none
    (by decide)

/-- Claim C3 counterexample: the analytics equity curve sums the stored
pnl values without any currency conversion — a closed INR trade with pnl
83.5 viewed in USD yields an equity point of 83.5, not the converted 1. -/
theorem equityData_no_conversion_cex :
    ((equityData (analyticsFilteredTrades [inrTrade] TimeRange.all 10 0)).map
        (fun pt => pt.pnl) = [(167 : ℚ) / 2]) ∧
    convert inrTrade.pnl Currency.INR Currency.USD = 1 ∧
    ((167 : ℚ) / 2) ≠ 1 := by
  refine ⟨?_, ?_, by norm_num⟩
  · norm_num [equityData, analyticsFilteredTrades, filteredTrades, inRange, inrTrade,
      equityGo, List.insertionSort, List.orderedInsert]
  · norm_num [convert, inrTrade, CONVERSION_RATE]
    decide

/-- Claim C3 (amended): the k-th point of the analytics equity curve is
the running sum of the raw stored pnl values (missing pnl read as 0, no
currency conversion) over the first k+1 closed-with-defined-pnl trades of
the window-filtered, timestamp-sorted list. -/
theorem equityData_raw_cumulative (trades : List Trade) (range : TimeRange) (now soy : Int)
    (k : Nat) (h : k < (equityData (analyticsFilteredTrades trades range now soy)).length) :
    ((equityData (analyticsFilteredTrades trades range now soy)).get ⟨k, h⟩).pnl =
      ((((analyticsFilteredTrades trades range now soy).filter
          (fun t => decide (t.status = TradeStatus.CLOSED ∧ t.pnl ≠ none))).take (k + 1)).map
        (fun t => t.pnl.getD 0)).sum := by
  unfold equityData at h ⊢
  rw [equityGo_pnl_get]
  exact zero_add _

/-- Witness for C3 (amended) at the concrete INR trade list. -/
theorem equityData_raw_cumulative_witness :
    ((equityData (analyticsFilteredTrades [inrTrade] TimeRange.all 10 0)).get
        ⟨0, by decide⟩).pnl =
      ((((analyticsFilteredTrades [inrTrade] TimeRange.all 10 0).filter
          (fun t => decide (t.status = TradeStatus.CLOSED ∧ t.pnl ≠ none))).take 1).map
        (fun t => t.pnl.getD 0)).sum :=
  equityData_raw_cumulative [inrTrade] TimeRange.all 10 0 0 (by decide)

/-- Claim C2: the shared display-conversion function converts a value to
its own currency unchanged, multiplies by the fixed rate 83.5 from USD to
INR and divides by it from INR to USD (so the USD→INR→USD round trip is
the identity, exactly in rational arithmetic), and sends an undefined or
zero source value to exactly 0. -/
theorem convert_display_spec (v : ℚ) (s t : Currency) :
    convert (some v) s s = v ∧
    convert (some v) Currency.USD Currency.INR = v * (167 / 2) ∧
    convert (some v) Currency.INR Currency.USD = v / (167 / 2) ∧
    convert (some (convert (some v) Currency.USD Currency.INR)) Currency.INR Currency.USD = v ∧
    convert none s t = 0 ∧
    convert (some 0) s t = 0 := by
  refine ⟨?_, ?_, ?_, ?_, rfl, by simp [convert]⟩
  · by_cases hv : v = 0 <;> simp [convert, hv]
  · by_cases hv : v = 0 <;> simp [convert, CONVERSION_RATE, hv]
  · by_cases hv : v = 0 <;> simp [convert, CONVERSION_RATE, hv]
  · by_cases hv : v = 0
    · simp [convert, hv]
    · have hr : CONVERSION_RATE ≠ 0 := by norm_num [CONVERSION_RATE]
      have h2 : v * CONVERSION_RATE ≠ 0 := mul_ne_zero hv hr
      simp [convert, hv, h2, CONVERSION_RATE]

theorem splitSubFuel_nil (sep : List Char) (n : Nat) : splitSubFuel sep n [] = [[]] := by
  cases n <;> rfl

theorem splitSubFuel_cons (sep : List Char) (fuel : Nat) (c : Char) (rest : List Char) :
    splitSubFuel sep (fuel + 1) (c :: rest) =
      if sep ≠ [] ∧ sep.isPrefixOf (c :: rest) then
        [] :: splitSubFuel sep fuel ((c :: rest).drop sep.length)
      else
        match splitSubFuel sep fuel rest with
        | [] => [[c]]
        | piece :: pieces => (c :: piece) :: pieces := rfl

theorem splitSubFuel_adequate (sep : List Char) :
    ∀ (n : Nat) (s : List Char), s.length ≤ n → ∀ (m : Nat), s.length ≤ m →
      splitSubFuel sep n s = splitSubFuel sep m s := by
  intro n
  induction n with
  | zero =>
    intro s hs m _
    have hsz : s = [] := List.length_eq_zero.mp (Nat.le_zero.mp hs)
    subst hsz
    rw [splitSubFuel_nil, splitSubFuel_nil]
  | succ n ih =>
    intro s hs m hm
    cases s with
    | nil => rw [splitSubFuel_nil, splitSubFuel_nil]
    | cons c rest =>
      cases m with
      | zero => simp at hm
      | succ m' =>
        rw [splitSubFuel_cons, splitSubFuel_cons]
        have hrn : rest.length ≤ n := by simpa using Nat.lt_succ_iff.mp (Nat.lt_of_lt_of_le (by simp) hs)
        have hrm : rest.length ≤ m' := by simpa using Nat.lt_succ_iff.mp (Nat.lt_of_lt_of_le (by simp) hm)
        by_cases hc : sep ≠ [] ∧ sep.isPrefixOf (c :: rest)
        · rw [if_pos hc, if_pos hc]
          have hsl : 0 < sep.length := List.length_pos.mpr hc.1
          have hdl : ((c :: rest).drop sep.length).length ≤ rest.length := by
            rw [List.length_drop, List.length_cons]
            omega
          rw [ih ((c :: rest).drop sep.length) (le_trans hdl hrn) m' (le_trans hdl hrm)]
        · rw [if_neg hc, if_neg hc, ih rest hrn m' hrm]

theorem splitSub_nil (sep : List Char) : splitSub sep [] = [[]] := rfl

theorem splitSub_cons (sep : List Char) (c : Char) (rest : List Char) :
    splitSub sep (c :: rest) =
      if sep ≠ [] ∧ sep.isPrefixOf (c :: rest) then
        [] :: splitSub sep ((c :: rest).drop sep.length)
      else
        match splitSub sep rest with
        | [] => [[c]]
        | piece :: pieces => (c :: piece) :: pieces := by
  show splitSubFuel sep (rest.length + 1) (c :: rest) = _
  rw [splitSubFuel_cons]
  by_cases hc : sep ≠ [] ∧ sep.isPrefixOf (c :: rest)
  · rw [if_pos hc, if_pos hc]
    have hsl : 0 < sep.length := List.length_pos.mpr hc.1
    have hdl : ((c :: rest).drop sep.length).length ≤ rest.length := by
      rw [List.length_drop, List.length_cons]
      omega
    exact congrArg (List.cons [])
      (splitSubFuel_adequate sep rest.length ((c :: rest).drop sep.length) hdl
        ((c :: rest).drop sep.length).length le_rfl)
  · rw [if_neg hc, if_neg hc]
    rfl

theorem splitSub_ne_nil (sep s : List Char) : splitSub sep s ≠ [] := by
  cases s with
  | nil => simp [splitSub_nil]
  | cons c rest =>
    rw [splitSub_cons]
    by_cases hc : sep ≠ [] ∧ sep.isPrefixOf (c :: rest)
    · rw [if_pos hc]; simp
    · rw [if_neg hc]
      cases hm : splitSub sep rest <;> simp

theorem splitSub_cons_shape (sep s : List Char) :
    ∃ h t, splitSub sep s = h :: t := by
  cases hs : splitSub sep s with
  | nil => exact absurd hs (splitSub_ne_nil sep s)
  | cons a b => exact ⟨a, b, rfl⟩

theorem splitSub_append_noOcc (sep : List Char) (hsep : sep ≠ []) :
    ∀ (a rest : List Char),
      (∀ i, i < a.length → ¬ sep <+: (a.drop i ++ rest)) →
      splitSub sep (a ++ rest) =
        (a ++ (splitSub sep rest).headD []) :: (splitSub sep rest).tail := by
  intro a
  induction a with
  | nil =>
    intro rest _
    obtain ⟨h, t, hht⟩ := splitSub_cons_shape sep rest
    simp [hht]
  | cons c a' ih =>
    intro rest hocc
    have h0 : ¬ sep <+: ((c :: a') ++ rest) := by
      have := hocc 0 (by simp)
      simpa using this
    rw [List.cons_append, splitSub_cons, if_neg (fun hcp =>
      h0 (List.isPrefixOf_iff_prefix.mp hcp.2))]
    have hrec := ih rest (fun i hi => by
      have := hocc (i + 1) (by simpa using Nat.succ_lt_succ hi)
      simpa using this)
    rw [hrec]
    rfl

theorem splitSub_sep_append (sep : List Char) (hsep : sep ≠ []) (b : List Char) :
    splitSub sep (sep ++ b) = [] :: splitSub sep b := by
  obtain ⟨c, sep', hcs⟩ : ∃ c s', sep = c :: s' := by
    cases sep with
    | nil => exact absurd rfl hsep
    | cons c s' => exact ⟨c, s', rfl⟩
  conv_lhs => rw [hcs, List.cons_append, splitSub_cons]
  rw [if_pos ⟨by rw [← hcs] at *; exact hsep, by
    rw [← List.cons_append, ← hcs]
    exact List.isPrefixOf_iff_prefix.mpr (List.prefix_append sep b)⟩]
  rw [← List.cons_append, ← hcs, List.drop_left]

theorem splitSub_three (sep : List Char) (hsep : sep ≠ []) (a b : List Char)
    (hocc : ∀ i, i < a.length → ¬ sep <+: (a.drop i ++ (sep ++ b))) :
    splitSub sep (a ++ sep ++ b) = a :: splitSub sep b := by
  rw [List.append_assoc, splitSub_append_noOcc sep hsep a (sep ++ b) hocc,
    splitSub_sep_append sep hsep b]
  simp

theorem splitSub_no_occ (sep : List Char) (hsep : sep ≠ []) (s : List Char)
    (h : ¬ sep <:+: s) : splitSub sep s = [s] := by
  have hocc : ∀ i, i < s.length → ¬ sep <+: (s.drop i ++ []) := by
    intro i _ hp
    rw [List.append_nil] at hp
    obtain ⟨t, ht⟩ := hp
    obtain ⟨pre, hpre⟩ := List.drop_suffix i s
    exact h ⟨pre, t, by rw [List.append_assoc, ht, hpre]⟩
  have := splitSub_append_noOcc sep hsep s [] hocc
  rw [List.append_nil] at this
  rw [this, splitSub_nil]
  simp

theorem hspan_last_nl (sep a' rest : List Char) (hnl : nlChar ∉ sep)
    (hinf : ¬ sep <:+: (a' ++ [nlChar])) :
    ∀ i, i < (a' ++ [nlChar]).length → ¬ sep <+: ((a' ++ [nlChar]).drop i ++ rest) := by
  intro i hi hp
  have hile : i ≤ a'.length := by
    rw [List.length_append, List.length_singleton] at hi
    omega
  have hd : (a' ++ [nlChar]).drop i = a'.drop i ++ [nlChar] := by
    rw [List.drop_append_eq_append_drop, Nat.sub_eq_zero_of_le hile, List.drop_zero]
  rw [hd] at hp
  by_cases hlen : sep.length ≤ (a'.drop i ++ [nlChar]).length
  · have hsd : sep <+: a'.drop i ++ [nlChar] :=
      List.prefix_of_prefix_length_le hp (List.prefix_append _ rest) hlen
    apply hinf
    obtain ⟨t, ht⟩ := hsd
    obtain ⟨pre, hpre⟩ : a'.drop i ++ [nlChar] <:+ a' ++ [nlChar] := by
      rw [← hd]
      exact List.drop_suffix i _
    exact ⟨pre, t, by rw [List.append_assoc, ht, hpre]⟩
  · push_neg at hlen
    have hds : a'.drop i ++ [nlChar] <+: sep :=
      List.prefix_of_prefix_length_le (List.prefix_append _ rest) hp (le_of_lt hlen)
    exact hnl (hds.subset (List.mem_append_right _ (List.mem_singleton_self _)))

theorem infix_append_cases {sep x y : List Char} (h : sep <:+: x ++ y) :
    sep <:+: x ∨ sep <:+: y ∨
      ∃ k, 0 < k ∧ k < sep.length ∧ sep.take k <:+ x ∧ sep.drop k <+: y := by
  obtain ⟨s, t, hst⟩ := h
  by_cases h1 : s.length + sep.length ≤ x.length
  · left
    have hx0 : (x ++ y).take x.length = x := List.take_left x y
    rw [← hst, List.take_append_eq_append_take, List.take_append_eq_append_take] at hx0
    rw [List.take_of_length_le (by omega : s.length ≤ x.length),
      List.take_of_length_le (by omega : sep.length ≤ x.length - s.length)] at hx0
    exact ⟨s, t.take (x.length - (s ++ sep).length), hx0⟩
  · by_cases h2 : x.length ≤ s.length
    · right; left
      have hy0 : (x ++ y).drop x.length = y := List.drop_left x y
      rw [← hst, List.drop_append_eq_append_drop, List.drop_append_eq_append_drop] at hy0
      rw [Nat.sub_eq_zero_of_le h2, List.drop_zero,
        Nat.sub_eq_zero_of_le (by rw [List.length_append]; omega), List.drop_zero] at hy0
      exact ⟨s.drop x.length, t, hy0⟩
    · right; right
      push_neg at h1 h2
      refine ⟨x.length - s.length, by omega, by omega, ?_, ?_⟩
      · have hx0 : (x ++ y).take x.length = x := List.take_left x y
        rw [← hst, List.take_append_eq_append_take, List.take_append_eq_append_take] at hx0
        rw [List.take_of_length_le (by omega : s.length ≤ x.length),
          show x.length - (s ++ sep).length = 0 by rw [List.length_append]; omega,
          List.take_zero, List.append_nil] at hx0
        exact ⟨s, hx0⟩
      · have hy0 : (x ++ y).drop x.length = y := List.drop_left x y
        rw [← hst, List.drop_append_eq_append_drop, List.drop_append_eq_append_drop] at hy0
        have hz : x.length - (s ++ sep).length = 0 := by rw [List.length_append]; omega
        rw [hz, List.drop_zero, List.drop_eq_nil_of_le (le_of_lt h2),
          List.nil_append] at hy0
        exact ⟨t, hy0⟩

theorem infix_extend_right {l x : List Char} (y : List Char) (h : l <:+: x) :
    l <:+: x ++ y := by
  obtain ⟨s, t, hst⟩ := h
  exact ⟨s, t ++ y, by rw [← hst]; simp⟩

theorem infix_extend_left {l y : List Char} (x : List Char) (h : l <:+: y) :
    l <:+: x ++ y := by
  obtain ⟨s, t, hst⟩ := h
  exact ⟨x ++ s, t, by rw [← hst]; simp⟩

theorem lines_cons_nl (y : List Char) :
    splitSub [nlChar] (nlChar :: y) = [] :: splitSub [nlChar] y := by
  simpa using splitSub_sep_append [nlChar] (by simp) y

theorem lines_append_nl (x y : List Char) :
    splitSub [nlChar] (x ++ nlChar :: y) =
      splitSub [nlChar] x ++ splitSub [nlChar] y := by
  induction x with
  | nil => simp [lines_cons_nl, splitSub_nil]
  | cons d x' ih =>
    by_cases hd : d = nlChar
    · subst hd
      rw [List.cons_append, lines_cons_nl, lines_cons_nl, ih]
      rfl
    · have hnp : ∀ z : List Char, ¬([nlChar] ≠ [] ∧ ([nlChar]).isPrefixOf (d :: z)) := by
        intro z hcp
        have := List.isPrefixOf_iff_prefix.mp hcp.2
        rw [List.cons_prefix_cons] at this
        exact hd this.1.symm
      rw [List.cons_append, splitSub_cons, if_neg (hnp _), splitSub_cons, if_neg (hnp _), ih]
      obtain ⟨h, t, hht⟩ := splitSub_cons_shape [nlChar] x'
      rw [hht]
      rfl

theorem lines_nl_free (s : List Char) (h : nlChar ∉ s) : splitSub [nlChar] s = [s] := by
  apply splitSub_no_occ _ (by simp)
  intro hinf
  obtain ⟨a, b, hab⟩ := hinf
  exact h (by rw [← hab]; simp)

theorem head_lines_takeWhile (s : List Char) :
    (splitSub [nlChar] s).headD [] = s.takeWhile (fun x => decide (x ≠ nlChar)) := by
  induction s with
  | nil => rfl
  | cons d s' ih =>
    by_cases hd : d = nlChar
    · subst hd
      rw [lines_cons_nl]
      simp [List.takeWhile_cons]
    · have hnp : ¬([nlChar] ≠ [] ∧ ([nlChar]).isPrefixOf (d :: s')) := by
        intro hcp
        have := List.isPrefixOf_iff_prefix.mp hcp.2
        rw [List.cons_prefix_cons] at this
        exact hd this.1.symm
      rw [splitSub_cons, if_neg hnp]
      obtain ⟨h, t, hht⟩ := splitSub_cons_shape [nlChar] s'
      rw [hht] at ih ⊢
      simp only [List.headD_cons] at ih
      simp [List.takeWhile_cons, hd, ih]

theorem mem_lines_within (s : List Char) : ∀ l ∈ splitSub [nlChar] s, l <:+: s := by
  induction s with
  | nil =>
    intro l hl
    rw [splitSub_nil, List.mem_singleton] at hl
    simp [hl]
  | cons d s' ih =>
    intro l hl
    by_cases hd : d = nlChar
    · subst hd
      rw [lines_cons_nl] at hl
      rcases List.mem_cons.mp hl with rfl | hl'
      · exact List.nil_infix
      · exact List.infix_cons (ih l hl')
    · have hnp : ¬([nlChar] ≠ [] ∧ ([nlChar]).isPrefixOf (d :: s')) := by
        intro hcp
        have := List.isPrefixOf_iff_prefix.mp hcp.2
        rw [List.cons_prefix_cons] at this
        exact hd this.1.symm
      rw [splitSub_cons, if_neg hnp] at hl
      obtain ⟨h, t, hht⟩ := splitSub_cons_shape [nlChar] s'
      rw [hht] at hl
      rcases List.mem_cons.mp hl with rfl | hl'
      · have hh : h = s'.takeWhile (fun x => decide (x ≠ nlChar)) := by
          have := head_lines_takeWhile s'
          rw [hht] at this
          simpa using this
        have hpre : (d :: h) <+: (d :: s') := by
          rw [List.cons_prefix_cons]
          exact ⟨rfl, hh ▸ List.takeWhile_prefix _⟩
        exact hpre.isInfix
      · have hmem : l ∈ splitSub [nlChar] s' := by
          rw [hht]
          exact List.mem_cons_of_mem _ hl'
        exact List.infix_cons (ih l hmem)

theorem prefix_takeWhile (p : Char → Bool) :
    ∀ (pre s : List Char), pre <+: s → (∀ x ∈ pre, p x = true) → pre <+: s.takeWhile p := by
  intro pre
  induction pre with
  | nil => intro s _ _; exact List.nil_prefix
  | cons a pre' ih =>
    intro s hp hall
    cases s with
    | nil => simp at hp
    | cons b s' =>
      rw [List.cons_prefix_cons] at hp
      obtain ⟨rfl, hp'⟩ := hp
      rw [List.takeWhile_cons, if_pos (hall a (List.mem_cons_self _ _)), List.cons_prefix_cons]
      exact ⟨rfl, ih s' hp' (fun x hx => hall x (List.mem_cons_of_mem _ hx))⟩

theorem infix_in_some_line (sep : List Char) (hnl : nlChar ∉ sep) (hsep : sep ≠ []) :
    ∀ (s : List Char), sep <:+: s → ∃ l, l ∈ splitSub [nlChar] s ∧ sep <:+: l := by
  intro s
  induction s with
  | nil =>
    intro h
    rw [List.infix_nil] at h
    exact absurd h hsep
  | cons d s' ih =>
    intro h
    rcases List.infix_cons_iff.mp h with hpre | hsuf
    · have h1 : sep <+: (d :: s').takeWhile (fun x => decide (x ≠ nlChar)) :=
        prefix_takeWhile _ sep (d :: s') hpre (fun x hx => by
          simp only [decide_eq_true_eq]
          intro hxe
          exact hnl (hxe ▸ hx))
      refine ⟨(splitSub [nlChar] (d :: s')).headD [], ?_, ?_⟩
      · obtain ⟨hh, t, hht⟩ := splitSub_cons_shape [nlChar] (d :: s')
        rw [hht]
        simp
      · rw [head_lines_takeWhile]
        exact h1.isInfix
    · obtain ⟨l, hl, hinf⟩ := ih hsuf
      by_cases hd : d = nlChar
      · subst hd
        exact ⟨l, by rw [lines_cons_nl]; exact List.mem_cons_of_mem _ hl, hinf⟩
      · have hnp : ¬([nlChar] ≠ [] ∧ ([nlChar]).isPrefixOf (d :: s')) := by
          intro hcp
          have := List.isPrefixOf_iff_prefix.mp hcp.2
          rw [List.cons_prefix_cons] at this
          exact hd this.1.symm
        obtain ⟨hh, t, hht⟩ := splitSub_cons_shape [nlChar] s'
        have hshape : splitSub [nlChar] (d :: s') = (d :: hh) :: t := by
          rw [splitSub_cons, if_neg hnp, hht]
        rw [hht] at hl
        rcases List.mem_cons.mp hl with rfl | hl'
        · exact ⟨d :: l, by rw [hshape]; exact List.mem_cons_self _ _, List.infix_cons hinf⟩
        · exact ⟨l, by rw [hshape]; exact List.mem_cons_of_mem _ hl', hinf⟩

theorem jsTrimRight_append (a b : List Char) :
    jsTrimRight (a ++ b) =
      if jsTrimRight b = [] then jsTrimRight a else a ++ jsTrimRight b := by
  unfold jsTrimRight
  rw [List.reverse_append, List.dropWhile_append]
  by_cases hb : (List.dropWhile isWs b.reverse).isEmpty = true
  · have hb' : List.dropWhile isWs b.reverse = [] := by simpa using hb
    rw [if_pos hb, if_pos (by rw [hb']; rfl)]
  · have hb' : List.dropWhile isWs b.reverse ≠ [] := by simpa using hb
    rw [if_neg hb, if_neg (by simpa using hb'), List.reverse_append]
    simp

theorem jsTrimRight_prefix (s : List Char) : jsTrimRight s <+: s := by
  have h1 : List.dropWhile isWs s.reverse <:+ s.reverse := List.dropWhile_suffix _
  have h2 : (jsTrimRight s).reverse <:+ s.reverse := by
    unfold jsTrimRight
    rw [List.reverse_reverse]
    exact h1
  exact List.reverse_suffix.mp h2

theorem jsTrim_self_parts (s : List Char) (h : jsTrim s = s) :
    jsTrimLeft s = s ∧ jsTrimRight s = s := by
  have h1 : jsTrimLeft s <:+ s := List.dropWhile_suffix _
  have h2 : jsTrimRight (jsTrimLeft s) <+: jsTrimLeft s := jsTrimRight_prefix _
  have hl : s.length ≤ (jsTrimLeft s).length := by
    have := h2.length_le
    rw [show jsTrimRight (jsTrimLeft s) = jsTrim s from rfl, h] at this
    exact this
  have hL : jsTrimLeft s = s := h1.eq_of_length (le_antisymm h1.length_le hl)
  refine ⟨hL, ?_⟩
  have : jsTrimRight s = jsTrim s := by
    rw [show jsTrim s = jsTrimRight (jsTrimLeft s) from rfl, hL]
  rw [this, h]

theorem head_not_ws (c : Char) (s' : List Char) (hL : jsTrimLeft (c :: s') = c :: s') :
    isWs c = false := by
  by_contra hw
  have hw' : isWs c = true := by simpa using hw
  unfold jsTrimLeft at hL
  rw [List.dropWhile_cons, if_pos hw'] at hL
  have hlen := congrArg List.length hL
  have hle : (List.dropWhile isWs s').length ≤ s'.length :=
    (List.dropWhile_suffix _).length_le
  simp at hlen
  omega

theorem jsTrim_append_nlnl (N : List Char) (h0 : N ≠ []) (ht : jsTrim N = N) :
    jsTrim (N ++ [nlChar, nlChar]) = N := by
  obtain ⟨hL, hR⟩ := jsTrim_self_parts N ht
  obtain ⟨c, N', rfl⟩ : ∃ c N', N = c :: N' := by
    cases N with
    | nil => exact absurd rfl h0
    | cons c N' => exact ⟨c, N', rfl⟩
  have hw := head_not_ws c N' hL
  show jsTrimRight (jsTrimLeft ((c :: N') ++ [nlChar, nlChar])) = _
  have hLL : jsTrimLeft ((c :: N') ++ [nlChar, nlChar]) = (c :: N') ++ [nlChar, nlChar] := by
    unfold jsTrimLeft
    rw [List.cons_append, List.dropWhile_cons, if_neg (by simp [hw])]
  rw [hLL, jsTrimRight_append, if_pos (by decide)]
  exact hR

theorem jsTrim_cons_space (p : List Char) : jsTrim (' ' :: p) = jsTrim p := by
  show jsTrimRight (jsTrimLeft (' ' :: p)) = _
  unfold jsTrimLeft
  rw [List.dropWhile_cons, if_pos (by decide)]
  rfl

theorem nl_cond_neg (d : Char) (z : List Char) (hd : d ≠ nlChar) :
    ¬([nlChar] ≠ [] ∧ ([nlChar]).isPrefixOf (d :: z)) := by
  intro hcp
  have := List.isPrefixOf_iff_prefix.mp hcp.2
  rw [List.cons_prefix_cons] at this
  exact hd this.1.symm

theorem joinWith_cons_char (sep : List Char) (d : Char) (h : List Char)
    (t : List (List Char)) :
    joinWith sep ((d :: h) :: t) = d :: joinWith sep (h :: t) := by
  cases t with
  | nil => rfl
  | cons t1 t2 => simp [joinWith]

theorem joinWith_split (s : List Char) : joinWith [nlChar] (splitSub [nlChar] s) = s := by
  induction s with
  | nil => rfl
  | cons d s' ih =>
    obtain ⟨h, t, hht⟩ := splitSub_cons_shape [nlChar] s'
    rw [hht] at ih
    by_cases hd : d = nlChar
    · subst hd
      rw [lines_cons_nl, hht]
      show [] ++ [nlChar] ++ joinWith [nlChar] (h :: t) = _
      rw [ih]
      rfl
    · rw [splitSub_cons, if_neg (nl_cond_neg d s' hd), hht]
      show joinWith [nlChar] ((d :: h) :: t) = d :: s'
      rw [joinWith_cons_char, ih]

theorem joinWith_append (sep : List Char) (L1 L2 : List (List Char))
    (h1 : L1 ≠ []) (h2 : L2 ≠ []) :
    joinWith sep (L1 ++ L2) = joinWith sep L1 ++ sep ++ joinWith sep L2 := by
  induction L1 with
  | nil => exact absurd rfl h1
  | cons x L1' ih =>
    cases L1' with
    | nil =>
      cases L2 with
      | nil => exact absurd rfl h2
      | cons y L2' => simp [joinWith]
    | cons x2 L1'' =>
      show joinWith sep (x :: x2 :: (L1'' ++ L2)) = _
      rw [show joinWith sep (x :: x2 :: (L1'' ++ L2)) =
        x ++ sep ++ joinWith sep (x2 :: (L1'' ++ L2)) from rfl]
      rw [show (x2 :: (L1'' ++ L2) : List (List Char)) = (x2 :: L1'') ++ L2 from rfl,
        ih (by simp)]
      simp [joinWith, List.append_assoc]

theorem psychFull_eq : psychMarkFull = psychMarkShort ++ [' '] := by decide

theorem chartShort_prefix_full : chartMarkShort <+: chartMarkFull := by decide

theorem psychShort_prefix_full : psychMarkShort <+: psychMarkFull := by decide

theorem nl_not_mem_chartFull : nlChar ∉ chartMarkFull := by decide

theorem nl_not_mem_psychShort : nlChar ∉ psychMarkShort := by decide

theorem nl_not_mem_psychFull : nlChar ∉ psychMarkFull := by decide

theorem chartFull_ne_nil : chartMarkFull ≠ [] := by decide

theorem chartShort_ne_nil : chartMarkShort ≠ [] := by decide

theorem psychShort_ne_nil : psychMarkShort ≠ [] := by decide

theorem span_chartFull_psychFull :
    ∀ k ∈ List.range chartMarkFull.length,
      k = 0 ∨ ¬ chartMarkFull.take k <:+ psychMarkFull := by decide

theorem span_psychShort_space :
    ∀ k ∈ List.range psychMarkShort.length,
      k = 0 ∨ ¬ psychMarkShort.take k <:+ [' '] := by decide

theorem span_psychShort_chartFull :
    ∀ k ∈ List.range psychMarkShort.length,
      k = 0 ∨ ¬ psychMarkShort.take k <:+ chartMarkFull := by decide

theorem not_chartFull_infix_psychFull : ¬ chartMarkFull <:+: psychMarkFull := by decide

theorem not_psychShort_infix_chartFull : ¬ psychMarkShort <:+: chartMarkFull := by decide

theorem short_of_full_chart {X : List Char} (h : chartMarkFull <:+: X) :
    chartMarkShort <:+: X :=
  (chartShort_prefix_full.isInfix).trans h

theorem short_of_full_psych {X : List Char} (h : psychMarkFull <:+: X) :
    psychMarkShort <:+: X :=
  (psychShort_prefix_full.isInfix).trans h

theorem lines_no_infix (mk N : List Char) (h : ¬ mk <:+: N) :
    ∀ l ∈ splitSub [nlChar] N, ¬ mk <:+: l :=
  fun l hl hm => h (hm.trans (mem_lines_within N l hl))

theorem not_chartFull_infix_PMp (p : List Char) (hp2 : ¬ chartMarkShort <:+: p) :
    ¬ chartMarkFull <:+: psychMarkFull ++ p := by
  intro h
  rcases infix_append_cases h with h1 | h2 | ⟨k, hk0, hkl, hks, _⟩
  · exact not_chartFull_infix_psychFull h1
  · exact hp2 (short_of_full_chart h2)
  · rcases span_chartFull_psychFull k (List.mem_range.mpr hkl) with rfl | hns
    · exact absurd hk0 (lt_irrefl 0)
    · exact hns hks

theorem not_psychShort_infix_spaceP (p : List Char) (hp1 : ¬ psychMarkShort <:+: p) :
    ¬ psychMarkShort <:+: [' '] ++ p := by
  intro h
  rcases infix_append_cases h with h1 | h2 | ⟨k, hk0, hkl, hks, _⟩
  · exact absurd h1.length_le (by decide)
  · exact hp1 h2
  · rcases span_psychShort_space k (List.mem_range.mpr hkl) with rfl | hns
    · exact absurd hk0 (lt_irrefl 0)
    · exact hns hks

theorem not_psychShort_infix_CMu (u : List Char) (hu1 : ¬ psychMarkShort <:+: u) :
    ¬ psychMarkShort <:+: chartMarkFull ++ u := by
  intro h
  rcases infix_append_cases h with h1 | h2 | ⟨k, hk0, hkl, hks, _⟩
  · exact not_psychShort_infix_chartFull h1
  · exact hu1 h2
  · rcases span_psychShort_chartFull k (List.mem_range.mpr hkl) with rfl | hns
    · exact absurd hk0 (lt_irrefl 0)
    · exact hns hks

theorem lines_block (x y : List Char) :
    splitSub [nlChar] (x ++ [nlChar, nlChar] ++ y) =
      splitSub [nlChar] x ++ [] :: splitSub [nlChar] y := by
  have e : x ++ [nlChar, nlChar] ++ y = x ++ nlChar :: (nlChar :: y) := by simp
  rw [e, lines_append_nl, lines_cons_nl]

/-- Claim C7 counterexample: with pre-existing notes `"note"`, exit
commentary `"calm "` (no marker lines, no newline in the appended values),
the re-parse returns the trimmed commentary `"calm"`, not the original
`"calm "` — the round trip is not exact, only exact up to trimming. -/
theorem notes_roundtrip_cex :
    closeTradeNotes ("note".toList) (some ("calm ".toList)) (some ("http://x".toList)) =
      ("note\n\n[EXIT PSYCHOLOGY]: calm \n\n[EXIT CHART]: http://x".toList) ∧
    calendarExitLog ("note\n\n[EXIT PSYCHOLOGY]: calm \n\n[EXIT CHART]: http://x".toList) =
      some ("calm".toList) ∧
    ("calm".toList ≠ "calm ".toList) := by
  refine ⟨by decide, by decide, by decide⟩

/-- Claim C7 (amended): for pre-existing non-empty notes with no
leading/trailing whitespace containing neither marker, and non-empty
whitespace-trimmed newline-free exit commentary and chart URL containing
neither marker, closing appends the two blank-line-prefixed marker lines
and the repository's parses (calendar note body, calendar exit log,
fetch-time chart URL) recover the notes, the commentary and the URL
unchanged. -/
theorem notes_roundtrip_trimmed
    (N p u : List Char)
    (hN0 : N ≠ []) (hNt : jsTrim N = N)
    (hp0 : p ≠ []) (hpt : jsTrim p = p) (hpn : nlChar ∉ p)
    (hu0 : u ≠ []) (hut : jsTrim u = u) (hun : nlChar ∉ u)
    (hN1 : ¬ psychMarkShort <:+: N) (hN2 : ¬ chartMarkShort <:+: N)
    (hp1 : ¬ psychMarkShort <:+: p) (hp2 : ¬ chartMarkShort <:+: p)
    (hu1 : ¬ psychMarkShort <:+: u) (hu2 : ¬ chartMarkShort <:+: u) :
    calendarNotesBody (closeTradeNotes N (some p) (some u)) = N ∧
    calendarExitLog (closeTradeNotes N (some p) (some u)) = some p ∧
    fetchExitChartUrl (closeTradeNotes N (some p) (some u)) = some u := by
  have hF : closeTradeNotes N (some p) (some u) =
      N ++ [nlChar, nlChar] ++ psychMarkFull ++ p ++ [nlChar, nlChar] ++
        chartMarkFull ++ u := by
    simp [closeTradeNotes, hp0, hN0, hu0]
  have hPMp_nl : nlChar ∉ psychMarkFull ++ p := by
    intro hm
    rcases List.mem_append.mp hm with h | h
    · exact nl_not_mem_psychFull h
    · exact hpn h
  have hCMu_nl : nlChar ∉ chartMarkFull ++ u := by
    intro hm
    rcases List.mem_append.mp hm with h | h
    · exact nl_not_mem_chartFull h
    · exact hun h
  have hlinesF : splitSub [nlChar] (closeTradeNotes N (some p) (some u)) =
      splitSub [nlChar] N ++ [[], psychMarkFull ++ p, [], chartMarkFull ++ u] := by
    rw [hF,
      show N ++ [nlChar, nlChar] ++ psychMarkFull ++ p ++ [nlChar, nlChar] ++
          chartMarkFull ++ u =
        N ++ [nlChar, nlChar] ++
          ((psychMarkFull ++ p) ++ [nlChar, nlChar] ++ (chartMarkFull ++ u)) by
        simp [List.append_assoc]]
    rw [lines_block, lines_block, lines_nl_free _ hPMp_nl, lines_nl_free _ hCMu_nl]
    rfl
  -- Part 1: the calendar note body recovers N.
  have hkeepN : ∀ l ∈ splitSub [nlChar] N,
      (!(decide (chartMarkShort <:+: l)) && !(decide (psychMarkShort <:+: l))) = true := by
    intro l hl
    have hc := lines_no_infix chartMarkShort N hN2 l hl
    have hpm := lines_no_infix psychMarkShort N hN1 l hl
    simp [hc, hpm]
  have hfilter : (splitSub [nlChar] (closeTradeNotes N (some p) (some u))).filter
      (fun line => !(decide (chartMarkShort <:+: line)) &&
        !(decide (psychMarkShort <:+: line))) =
      splitSub [nlChar] N ++ [[], []] := by
    rw [hlinesF, List.filter_append, List.filter_eq_self.mpr hkeepN]
    congr 1
    have hPMdrop : psychMarkShort <:+: psychMarkFull ++ p :=
      infix_extend_right p (psychShort_prefix_full.isInfix)
    have hCMdrop : chartMarkShort <:+: chartMarkFull ++ u :=
      infix_extend_right u (chartShort_prefix_full.isInfix)
    simp [List.filter, hPMdrop, hCMdrop, List.infix_nil, psychShort_ne_nil,
      chartShort_ne_nil]
  have hjoin : joinWith [nlChar] (splitSub [nlChar] N ++ [[], []]) =
      N ++ [nlChar, nlChar] := by
    rw [joinWith_append [nlChar] _ _ (splitSub_ne_nil _ _) (by simp), joinWith_split,
      show joinWith [nlChar] ([[], []] : List (List Char)) = [nlChar] from rfl]
    simp
  have hbody : calendarNotesBody (closeTradeNotes N (some p) (some u)) = N := by
    simp only [calendarNotesBody]
    rw [hfilter, hjoin, jsTrim_append_nlnl N hN0 hNt, if_neg hN0]
  -- Part 2: the calendar exit log recovers p.
  have hlinesA2 : splitSub [nlChar] (N ++ [nlChar, nlChar]) =
      splitSub [nlChar] N ++ [[], []] := by
    rw [show N ++ [nlChar, nlChar] = N ++ [nlChar, nlChar] ++ [] by simp,
      lines_block, splitSub_nil]
  have hnoPM_A2 : ¬ psychMarkShort <:+: (N ++ [nlChar, nlChar]) := by
    intro h
    obtain ⟨l, hl, hinf⟩ :=
      infix_in_some_line psychMarkShort nl_not_mem_psychShort psychShort_ne_nil _ h
    rw [hlinesA2] at hl
    rcases List.mem_append.mp hl with hlN | hlc
    · exact hN1 (hinf.trans (mem_lines_within N l hlN))
    · simp at hlc
      rw [hlc, List.infix_nil] at hinf
      exact psychShort_ne_nil hinf
  have hsp_nl : nlChar ∉ [' '] ++ p := by
    intro hm
    rcases List.mem_append.mp hm with h | h
    · simp at h
      exact absurd h (by decide)
    · exact hpn h
  have hlinesB2 : splitSub [nlChar]
      (([' '] ++ p) ++ [nlChar, nlChar] ++ (chartMarkFull ++ u)) =
      [[' '] ++ p, [], chartMarkFull ++ u] := by
    rw [lines_block, lines_nl_free _ hCMu_nl, lines_nl_free _ hsp_nl]
    rfl
  have hnoPM_B2 : ¬ psychMarkShort <:+:
      (([' '] ++ p) ++ [nlChar, nlChar] ++ (chartMarkFull ++ u)) := by
    intro h
    obtain ⟨l, hl, hinf⟩ :=
      infix_in_some_line psychMarkShort nl_not_mem_psychShort psychShort_ne_nil _ h
    rw [hlinesB2] at hl
    simp at hl
    rcases hl with hq | hq | hq
    · rw [hq] at hinf
      exact not_psychShort_infix_spaceP p hp1 hinf
    · rw [hq, List.infix_nil] at hinf
      exact psychShort_ne_nil hinf
    · rw [hq] at hinf
      exact not_psychShort_infix_CMu u hu1 hinf
  have hF2 : closeTradeNotes N (some p) (some u) =
      (N ++ [nlChar, nlChar]) ++ psychMarkShort ++
        (([' '] ++ p) ++ [nlChar, nlChar] ++ (chartMarkFull ++ u)) := by
    rw [hF, psychFull_eq]
    simp [List.append_assoc]
  have hform2 : N ++ [nlChar, nlChar] = (N ++ [nlChar]) ++ [nlChar] := by
    simp [List.append_assoc]
  have hsplitPM : splitSub psychMarkShort (closeTradeNotes N (some p) (some u)) =
      [N ++ [nlChar, nlChar],
        ([' '] ++ p) ++ [nlChar, nlChar] ++ (chartMarkFull ++ u)] := by
    rw [hF2]
    have hocc2 := hspan_last_nl psychMarkShort (N ++ [nlChar])
      (psychMarkShort ++ (([' '] ++ p) ++ [nlChar, nlChar] ++ (chartMarkFull ++ u)))
      nl_not_mem_psychShort (by rw [← hform2]; exact hnoPM_A2)
    rw [splitSub_three psychMarkShort psychShort_ne_nil _ _
      (by rw [hform2]; exact hocc2)]
    rw [splitSub_no_occ psychMarkShort psychShort_ne_nil _ hnoPM_B2]
  have hexit : calendarExitLog (closeTradeNotes N (some p) (some u)) = some p := by
    unfold calendarExitLog
    have hguard : psychMarkShort <:+: closeTradeNotes N (some p) (some u) := by
      rw [hF2]
      exact ⟨N ++ [nlChar, nlChar], _, rfl⟩
    rw [if_pos hguard, hsplitPM]
    show some (jsTrim ((splitSub [nlChar]
      (([' '] ++ p) ++ [nlChar, nlChar] ++ (chartMarkFull ++ u))).getD 0 [])) = some p
    rw [hlinesB2]
    show some (jsTrim ([' '] ++ p)) = some p
    rw [show ([' '] ++ p : List Char) = ' ' :: p from rfl, jsTrim_cons_space, hpt]
  -- Part 3: the fetch-time parse recovers u.
  have hlinesA1 : splitSub [nlChar]
      (N ++ [nlChar, nlChar] ++ psychMarkFull ++ p ++ [nlChar, nlChar]) =
      splitSub [nlChar] N ++ [[], psychMarkFull ++ p, [], []] := by
    rw [show N ++ [nlChar, nlChar] ++ psychMarkFull ++ p ++ [nlChar, nlChar] =
        N ++ [nlChar, nlChar] ++ ((psychMarkFull ++ p) ++ [nlChar, nlChar] ++ []) by
      simp [List.append_assoc]]
    rw [lines_block, lines_block, lines_nl_free _ hPMp_nl, splitSub_nil]
    rfl
  have hnoCM_A1 : ¬ chartMarkFull <:+:
      (N ++ [nlChar, nlChar] ++ psychMarkFull ++ p ++ [nlChar, nlChar]) := by
    intro h
    obtain ⟨l, hl, hinf⟩ :=
      infix_in_some_line chartMarkFull nl_not_mem_chartFull chartFull_ne_nil _ h
    rw [hlinesA1] at hl
    rcases List.mem_append.mp hl with hlN | hlc
    · exact hN2 (short_of_full_chart (hinf.trans (mem_lines_within N l hlN)))
    · simp at hlc
      rcases hlc with hq | hq | hq
      · rw [hq, List.infix_nil] at hinf
        exact chartFull_ne_nil hinf
      · rw [hq] at hinf
        exact not_chartFull_infix_PMp p hp2 hinf
      · rw [hq, List.infix_nil] at hinf
        exact chartFull_ne_nil hinf
  have hform1 : N ++ [nlChar, nlChar] ++ psychMarkFull ++ p ++ [nlChar, nlChar] =
      (N ++ [nlChar, nlChar] ++ psychMarkFull ++ p ++ [nlChar]) ++ [nlChar] := by
    simp [List.append_assoc]
  have hsplitCM : splitSub chartMarkFull (closeTradeNotes N (some p) (some u)) =
      [N ++ [nlChar, nlChar] ++ psychMarkFull ++ p ++ [nlChar, nlChar], u] := by
    rw [hF]
    have hocc1 := hspan_last_nl chartMarkFull
      (N ++ [nlChar, nlChar] ++ psychMarkFull ++ p ++ [nlChar])
      (chartMarkFull ++ u) nl_not_mem_chartFull (by rw [← hform1]; exact hnoCM_A1)
    rw [splitSub_three chartMarkFull chartFull_ne_nil _ u
      (by rw [hform1]; exact hocc1)]
    rw [splitSub_no_occ chartMarkFull chartFull_ne_nil u
      (fun h => hu2 (short_of_full_chart h))]
  have hfetch : fetchExitChartUrl (closeTradeNotes N (some p) (some u)) = some u := by
    unfold fetchExitChartUrl
    have hguard : chartMarkFull <:+: closeTradeNotes N (some p) (some u) := by
      rw [hF]
      exact ⟨N ++ [nlChar, nlChar] ++ psychMarkFull ++ p ++ [nlChar, nlChar], u, rfl⟩
    rw [if_pos hguard, hsplitCM]
    show some (jsTrim ((splitSub [nlChar] u).getD 0 [])) = some u
    rw [lines_nl_free u hun]
    show some (jsTrim u) = some u
    rw [hut]
  exact ⟨hbody, hexit, hfetch⟩

/-- Witness for C7 (amended) at concrete notes, commentary and URL. -/
theorem notes_roundtrip_trimmed_witness :
    calendarNotesBody (closeTradeNotes ("my note".toList) (some ("felt calm".toList))
      (some ("http://chart.png".toList))) = "my note".toList ∧
    calendarExitLog (closeTradeNotes ("my note".toList) (some ("felt calm".toList))
      (some ("http://chart.png".toList))) = some ("felt calm".toList) ∧
    fetchExitChartUrl (closeTradeNotes ("my note".toList) (some ("felt calm".toList))
      (some ("http://chart.png".toList))) = some ("http://chart.png".toList) :=
  notes_roundtrip_trimmed ("my note".toList) ("felt calm".toList) ("http://chart.png".toList)
    (by decide) (by decide) (by decide) (by decide) (by decide) (by decide) (by decide)
    (by decide) (by decide) (by decide) (by decide) (by decide) (by decide) (by decide)

theorem lowerChar_of_ws (c : Char) (h : isWs c = true) : lowerChar c = c := by
  unfold isWs at h
  simp only [Bool.or_eq_true, decide_eq_true_eq] at h
  rcases h with ((rfl | rfl) | rfl) | rfl <;> decide

/-- Claim C9 counterexample: the shortcut input `"bug x "` (trailing
space) is acknowledged and saved, but the record's description is the
trimmed `"bug x"`, not the raw input text `"bug x "`. -/
theorem feedback_shortcut_trim_cex :
    sendMessage ChatTab.feedback ("bug x ".toList) false true =
      SendAction.shortcut ackMessage
        { page := "shortcut-capture"
          urgency := "high"
          issue_type := "power-user-report"
          description := "bug x".toList } ∧
    ("bug x".toList ≠ "bug x ".toList) :=
  ⟨by decide, by decide⟩

/-- Claim C9 (amended): in feedback mode with the API key configured and
no send in flight, an input starting with `bug ` (case-insensitively) or
equal to `bug` or `broken` never reaches the remote chat-completion call:
`sendMessage` takes the shortcut, appending the fixed acknowledgement and
firing the background save of a feedback record with urgency `high` and
the trimmed raw input as description. -/
theorem feedback_shortcut_spec (input : List Char)
    (h : ("bug ".toList) <+: toLowerList input ∨ input = "bug".toList ∨
      input = "broken".toList) :
    sendMessage ChatTab.feedback input false true =
      SendAction.shortcut ackMessage
        { page := "shortcut-capture"
          urgency := "high"
          issue_type := "power-user-report"
          description := jsTrim input } := by
  rcases h with hpre | rfl | rfl
  · obtain ⟨tail, htail⟩ := hpre
    have hsym : ("bug ".toList : List Char) ++ tail = List.map lowerChar input := htail
    obtain ⟨pre, rest, hsplit, hmap, -⟩ := List.append_eq_map_iff.mp hsym
    rw [show ("bug ".toList : List Char) = ['b', 'u', 'g', ' '] from rfl] at hmap
    cases pre with
    | nil => simp at hmap
    | cons c1 p1 =>
    cases p1 with
    | nil => simp at hmap
    | cons c2 p2 =>
    cases p2 with
    | nil => simp at hmap
    | cons c3 p3 =>
    cases p3 with
    | nil => simp at hmap
    | cons c4 p4 =>
    cases p4 with
    | cons c5 p5 => simp at hmap
    | nil =>
    simp only [List.map_cons, List.map_nil, List.cons.injEq, and_true] at hmap
    obtain ⟨hc1, hc2, hc3, hc4⟩ := hmap
    subst hsplit
    have w1 : isWs c1 = false := by
      by_contra hw
      have hw' : isWs c1 = true := by simpa using hw
      rw [lowerChar_of_ws c1 hw'] at hc1
      subst hc1
      exact absurd hw' (by decide)
    have w3 : isWs c3 = false := by
      by_contra hw
      have hw' : isWs c3 = true := by simpa using hw
      rw [lowerChar_of_ws c3 hw'] at hc3
      subst hc3
      exact absurd hw' (by decide)
    have htL : jsTrimLeft ([c1, c2, c3, c4] ++ rest) = [c1, c2, c3, c4] ++ rest := by
      unfold jsTrimLeft
      rw [show ([c1, c2, c3, c4] ++ rest : List Char) = c1 :: ([c2, c3, c4] ++ rest)
        from rfl, List.dropWhile_cons, if_neg (by simp [w1])]
    have htrim : jsTrim ([c1, c2, c3, c4] ++ rest) =
        jsTrimRight ([c1, c2, c3, c4] ++ rest) := by
      unfold jsTrim
      rw [htL]
    have hcond : jsTrim ([c1, c2, c3, c4] ++ rest) ≠ [] ∧
        isShortcutInput (toLowerList (jsTrim ([c1, c2, c3, c4] ++ rest))) = true := by
      rw [htrim, jsTrimRight_append]
      by_cases hrest : jsTrimRight rest = []
      · rw [if_pos hrest]
        by_cases hw4 : isWs c4 = true
        · have h4 : jsTrimRight [c1, c2, c3, c4] = [c1, c2, c3] := by
            unfold jsTrimRight
            rw [show ([c1, c2, c3, c4] : List Char).reverse = [c4, c3, c2, c1] from by simp,
              List.dropWhile_cons, if_pos hw4, List.dropWhile_cons, if_neg (by simp [w3])]
            simp
          rw [h4]
          refine ⟨by simp, ?_⟩
          rw [show toLowerList [c1, c2, c3] = [lowerChar c1, lowerChar c2, lowerChar c3]
            from rfl, hc1, hc2, hc3]
          decide
        · have hw4f : isWs c4 = false := by simpa using hw4
          have h4 : jsTrimRight [c1, c2, c3, c4] = [c1, c2, c3, c4] := by
            unfold jsTrimRight
            rw [show ([c1, c2, c3, c4] : List Char).reverse = [c4, c3, c2, c1] from by simp,
              List.dropWhile_cons, if_neg (by simp [hw4f])]
            simp
          rw [h4]
          refine ⟨by simp, ?_⟩
          rw [show toLowerList [c1, c2, c3, c4] =
            [lowerChar c1, lowerChar c2, lowerChar c3, lowerChar c4] from rfl,
            hc1, hc2, hc3, hc4]
          decide
      · rw [if_neg hrest]
        refine ⟨by simp, ?_⟩
        rw [show toLowerList ([c1, c2, c3, c4] ++ jsTrimRight rest) =
          [lowerChar c1, lowerChar c2, lowerChar c3, lowerChar c4] ++
            toLowerList (jsTrimRight rest) from by simp [toLowerList],
          hc1, hc2, hc3, hc4]
        unfold isShortcutInput
        rw [Bool.or_eq_true, Bool.or_eq_true]
        left
        left
        exact List.isPrefixOf_iff_prefix.mpr
          ⟨toLowerList (jsTrimRight rest), rfl⟩
    unfold sendMessage
    rw [if_neg (by simp only [Bool.false_eq_true, or_false]; exact hcond.1),
      if_neg (by simp), if_pos ⟨rfl, hcond.2⟩]
  · decide
  · decide

/-- Witness for C9 (amended) at the documented example input. -/
theorem feedback_shortcut_spec_witness :
    sendMessage ChatTab.feedback ("bug dashboard not loading".toList) false true =
      SendAction.shortcut ackMessage
        { page := "shortcut-capture"
          urgency := "high"
          issue_type := "power-user-report"
          description := jsTrim ("bug dashboard not loading".toList) } :=
  feedback_shortcut_spec ("bug dashboard not loading".toList) (Or.inl (by decide))

end Theorems
